import Mathlib

/-!
Percent-encoder `encodeURIComponent` (src/encodeURIComponent.cpp)

A shallow embedding of the C++ function

    void encodeURIComponent(const char* str, std::ostringstream& encoded)

* A `char` is an `Int`: its value lies in `-128..127` where plain `char` is signed and in
  `0..255` where it is unsigned.  `charOfByte` gives the `char` value that holds a byte.
* The input `str` is the list of `char`s stored from the pointer onwards; the loop reads it
  until the first `'\0'`.  Running past the end of the list (no terminator in the buffer)
  has no defined result and is `none`.
* `std::ostringstream` is a record of the characters in its buffer, its put position, whether
  it is in a good state (`rdstate() == goodbit`), the formatting state that `operator<<` and
  the manipulators read and write (fill character, field width, adjustfield, basefield,
  uppercase, showbase, showpos) and the digit grouping of the `numpunct` facet of its locale.
  A formatted insertion writes at the put position, over what the buffer holds there, and
  does nothing on a stream that is not good.  The other facets of the locale are the standard
  ones, the exception mask is empty and the buffer can always grow.
-/

namespace EncodeURIComponent

/-! ## Characters -/

/-- Value of a character literal such as `'A'` as a C++ `char`. -/
def charCode (c : Char) : Int := (c.toNat : Int)

/-- The `char` object holding the byte `b` (`0 ≤ b < 256`): where plain `char` is signed, the
bytes from `0x80` upwards are the negative values `b - 256`. -/
def charOfByte (signedChar : Bool) (b : Nat) : Int :=
  if signedChar && decide (128 ≤ b) then (b : Int) - 256 else (b : Int)

/-- The `char`s of a byte string, without its terminator. -/
def charsOfBytes (signedChar : Bool) (s : List Nat) : List Int :=
  s.map (charOfByte signedChar)

/-! ## The output stream -/

/-- The `std::ios_base::adjustfield` group of flags. -/
inductive AdjustField where
  | unset
  | left
  | right
  | internal
deriving DecidableEq, Repr

/-- The `std::ios_base::basefield` group of flags. -/
inductive BaseField where
  | dec
  | oct
  | hex
deriving DecidableEq, Repr

/-- The part of a `std::ostringstream` that the encoder reads or writes: the characters of the
buffer (what `str()` returns), the put position, the good state, the formatting state, and the
digit grouping and separator of the locale (each group size counted from the right, the last
one repeated, `0` for a group without limit, no sizes for no grouping). -/
structure OStringStream where
  content : List Int
  pos : Nat
  good : Bool
  fill : Int
  width : Nat
  adjustfield : AdjustField
  basefield : BaseField
  uppercase : Bool
  showbase : Bool
  showpos : Bool
  grouping : List Nat
  thousands_sep : Int
deriving DecidableEq, Repr

namespace OStringStream

/-- A default-constructed `std::ostringstream`: no characters, good, fill `' '`, width `0`,
flags `skipws | dec`, the classic locale (no grouping, separator `','`). -/
def fresh : OStringStream :=
  { content := [], pos := 0, good := true, fill := 32, width := 0,
    adjustfield := AdjustField.unset, basefield := BaseField.dec, uppercase := false,
    showbase := false, showpos := false, grouping := [], thousands_sep := 44 }

/-- The manipulator `std::setfill(c)`. -/
def setfill (c : Int) (os : OStringStream) : OStringStream := { os with fill := c }

/-- The manipulator `std::right`. -/
def right (os : OStringStream) : OStringStream := { os with adjustfield := AdjustField.right }

/-- The manipulator `std::setw(n)`. -/
def setw (n : Nat) (os : OStringStream) : OStringStream := { os with width := n }

/-- The manipulator `std::uppercase`. -/
def setUppercase (os : OStringStream) : OStringStream := { os with uppercase := true }

/-- The manipulator `std::hex`. -/
def hex (os : OStringStream) : OStringStream := { os with basefield := BaseField.hex }

/-- The padding of a field: `width - len` fill characters when the field is narrower than
`width`, none otherwise. -/
def padding (os : OStringStream) (len : Nat) : List Int :=
  List.replicate (os.width - len) os.fill

/-- The characters `w` go into the buffer at the put position: they replace the characters
that the buffer holds there and extend the buffer where it ends; the put position moves
behind them. -/
def write (w : List Int) (os : OStringStream) : OStringStream :=
  { os with content := os.content.take os.pos ++ w ++ os.content.drop (os.pos + w.length),
            pos := os.pos + w.length }

/-- Formatted insertion of one character, `os << c` with `c` a `char`: on a good stream the
character is padded to the field width (after the character when adjustfield is `left`,
before it otherwise), written at the put position, and the width is reset to `0`; a stream
that is not good is left as it is. -/
def putChar (c : Int) (os : OStringStream) : OStringStream :=
  if os.good then
    let pad := os.padding 1
    let field := if os.adjustfield = AdjustField.left then c :: pad else pad ++ [c]
    { os.write field with width := 0 }
  else os

/-- The character of the digit `d` (`0 ≤ d < 16`). -/
def digitChar (upper : Bool) (d : Nat) : Int :=
  if d < 10 then 48 + (d : Int) else if upper then 55 + (d : Int) else 87 + (d : Int)

/-- The digits of `n` in the given base, most significant first, in front of `acc`.  The
first argument bounds the number of digits; an `int` has at most 32 in any base. -/
def natDigits (base : Nat) (upper : Bool) : Nat → Nat → List Int → List Int
  | 0, _, acc => acc
  | fuel + 1, n, acc =>
      if n < base then digitChar upper n :: acc
      else natDigits base upper fuel (n / base) (digitChar upper (n % base) :: acc)

/-- Digit grouping on the digits in reverse order, least significant first: after each full
group that leaves digits over comes the separator.  The first argument bounds the number of
groups. -/
def groupAux (sep : Int) : Nat → List Nat → List Int → List Int
  | 0, _, ds => ds
  | _ + 1, [], ds => ds
  | fuel + 1, g :: gs, ds =>
      if g = 0 ∨ ds.length ≤ g then ds
      else ds.take g ++ sep :: groupAux sep fuel (if gs = [] then [g] else gs) (ds.drop g)

/-- The digits with the thousands separators of the locale between the groups. -/
def groupDigits (os : OStringStream) (digits : List Int) : List Int :=
  (groupAux os.thousands_sep digits.length os.grouping digits.reverse).reverse

/-- Stages 1 and 2 of `num_put` for an `int`: the sign or `0x`/`0X` part after which
`internal` padding goes, and the rest, with the digits grouped as the locale says.  Octal and
hexadecimal print the value as `unsigned int`. -/
def intRepr (os : OStringStream) (v : Int) : List Int × List Int :=
  match os.basefield with
  | BaseField.hex =>
      let u := (v % 4294967296).toNat
      (if os.showbase && decide (u ≠ 0) then [48, if os.uppercase then 88 else 120] else [],
        os.groupDigits (natDigits 16 os.uppercase 32 u []))
  | BaseField.oct =>
      let u := (v % 4294967296).toNat
      ([], (if os.showbase && decide (u ≠ 0) then [48] else [])
        ++ os.groupDigits (natDigits 8 os.uppercase 32 u []))
  | BaseField.dec =>
      (if v < 0 then [45] else if os.showpos then [43] else [],
        os.groupDigits (natDigits 10 os.uppercase 32 v.natAbs []))

/-- Formatted insertion of an `int`, `os << v`: on a good stream the representation is padded
to the field width as adjustfield says, written at the put position, and the width is reset
to `0`; a stream that is not good is left as it is. -/
def putInt (v : Int) (os : OStringStream) : OStringStream :=
  if os.good then
    let r := os.intRepr v
    let pad := os.padding (r.1.length + r.2.length)
    let field :=
      match os.adjustfield with
      | AdjustField.left => r.1 ++ r.2 ++ pad
      | AdjustField.internal => r.1 ++ pad ++ r.2
      | _ => pad ++ r.1 ++ r.2
    { os.write field with width := 0 }
  else os

end OStringStream

/-! ## The encoder -/

/-- The set `ignore_chars` of characters that are not encoded, as its initialiser list:
`A-Z a-z 0-9 - _ . ! ~ * ' ( )`. -/
def ignore_chars : List Int :=
  ['A', 'B', 'C', 'D', 'E', 'F', 'G', 'H', 'I', 'J', 'K', 'L', 'M',
   'N', 'O', 'P', 'Q', 'R', 'S', 'T', 'U', 'V', 'W', 'X', 'Y', 'Z',
   'a', 'b', 'c', 'd', 'e', 'f', 'g', 'h', 'i', 'j', 'k', 'l', 'm',
   'n', 'o', 'p', 'q', 'r', 's', 't', 'u', 'v', 'w', 'x', 'y', 'z',
   '0', '1', '2', '3', '4', '5', '6', '7', '8', '9',
   '-', '_', '.', '!', '~', '*', Char.ofNat 39, '(', ')'].map charCode

/-- One pass through the body of the `while` loop, for the character `c = *str`.
`0xff & c` on the promoted `int` is `c % 256`. -/
def encodeChar (c : Int) (encoded : OStringStream) : OStringStream :=
  if ignore_chars.count c = 0 then
    OStringStream.putInt (c % 256)
      (OStringStream.hex (OStringStream.setUppercase (OStringStream.setw 2
        (OStringStream.right (OStringStream.setfill (charCode '0')
          (OStringStream.putChar (charCode '%') encoded))))))
  else
    OStringStream.putChar c encoded

/-- The function `encodeURIComponent(str, encoded)`: the result is the stream after the call,
or `none` when the buffer holds no terminator. -/
def encodeURIComponent : List Int → OStringStream → Option OStringStream
  | [], _ => none
  | c :: str, encoded =>
      if c = 0 then some encoded else encodeURIComponent str (encodeChar c encoded)

/-- The characters that a call on the terminated string `str ++ "\0"` leaves in a
default-constructed stream (`std::ostringstream os; encodeURIComponent(str, os); os.str()`). -/
def encode (str : List Int) : Option (List Int) :=
  (encodeURIComponent (str ++ [0]) OStringStream.fresh).map OStringStream.content

/-! ## The specification's words -/

/-- The safe set as the specification enumerates it: `A-Z`, `a-z`, `0-9` and the nine
punctuation bytes `- _ . ! ~ * ' ( )`. -/
def isSafeByte (b : Nat) : Bool :=
  (decide (65 ≤ b) && decide (b ≤ 90)) || (decide (97 ≤ b) && decide (b ≤ 122)) ||
  (decide (48 ≤ b) && decide (b ≤ 57)) ||
  decide (b = 45) || decide (b = 95) || decide (b = 46) || decide (b = 33) ||
  decide (b = 126) || decide (b = 42) || decide (b = 39) || decide (b = 40) || decide (b = 41)

/-- The uppercase hexadecimal digit of `d` (`0 ≤ d < 16`): `0-9`, then `A-F`. -/
def upperHexDigit (d : Nat) : Int :=
  if d < 10 then charCode '0' + (d : Int) else charCode 'A' + ((d : Int) - 10)

/-- The specification's image of one byte: the byte itself when it is safe, otherwise `%`
and the two uppercase hexadecimal digits of the byte. -/
def escapeByte (b : Nat) : List Int :=
  if isSafeByte b then [(b : Int)]
  else [charCode '%', upperHexDigit (b / 16), upperHexDigit (b % 16)]

/-- The specification's output for a byte string: the images of its bytes, in order. -/
def percentEncode (s : List Nat) : List Int :=
  (s.map escapeByte).flatten

/-- The characters of a string literal. -/
def ascii (s : String) : List Int := s.toList.map charCode

/-- A byte string without NUL: every element is a byte other than `0`. -/
def NulFree (s : List Nat) : Prop := ∀ b ∈ s, 0 < b ∧ b < 256

instance (s : List Nat) : Decidable (NulFree s) := by
  unfold NulFree
  infer_instance

/-- A character of the safe set. -/
def isSafeChar (c : Int) : Bool := decide (0 ≤ c) && isSafeByte c.toNat

/-- An uppercase hexadecimal digit character: `0-9` or `A-F`. -/
def isUpperHexChar (c : Int) : Bool :=
  (decide (48 ≤ c) && decide (c ≤ 57)) || (decide (65 ≤ c) && decide (c ≤ 70))

/-- An output token: one safe character, or `%` and two uppercase hexadecimal digits. -/
def isToken : List Int → Bool
  | [c] => isSafeChar c
  | [p, h1, h2] => decide (p = charCode '%') && isUpperHexChar h1 && isUpperHexChar h2
  | _ => false

/-- The three-character escape of a byte: `%` and its two uppercase hexadecimal digits. -/
def escapeOf (b : Nat) : List Int :=
  [charCode '%', upperHexDigit (b / 16), upperHexDigit (b % 16)]

/-- The byte values that the encoder passes through unchanged: those whose `char` is found in
`ignore_chars`. -/
def safeBytes (signedChar : Bool) : List Nat :=
  (List.range 256).filter (fun b => decide (ignore_chars.count (charOfByte signedChar b) ≠ 0))

/-- The formatting state of a stream: the stream without its characters and its put
position. -/
def formatState (os : OStringStream) : OStringStream := { os with content := [], pos := 0 }

/-- A stream as a call of the encoder on a default-constructed stream finds and leaves it:
in a good state, with the put position at the end of the buffer, no pending field width,
`showbase` off and a locale without digit grouping. -/
def Plain (os : OStringStream) : Prop :=
  os.good = true ∧ os.pos = os.content.length ∧ os.width ≤ 1 ∧ os.showbase = false ∧
    os.grouping = []

instance (os : OStringStream) : Decidable (Plain os) := by
  unfold Plain
  infer_instance

/-- A stream that holds `x`, written by its owner, who has also set fill `'*'`, `left`, `oct`
and `showpos`. -/
def usedStream : OStringStream :=
  { OStringStream.fresh with
      content := [120], pos := 1, fill := 42, adjustfield := AdjustField.left,
      basefield := BaseField.oct, showpos := true }

/-- The formatting state that the insertion of a safe character leaves: the field width is
reset. -/
def afterWrite (os : OStringStream) : OStringStream := { os with width := 0 }

/-- The formatting state that the insertion of an escape leaves: fill `'0'`, `right`,
`uppercase` and `hex` are set and the field width is reset. -/
def afterEscape (os : OStringStream) : OStringStream :=
  { os with fill := charCode '0', width := 0, adjustfield := AdjustField.right,
            basefield := BaseField.hex, uppercase := true }

/-! ## Facts about single bytes -/

theorem charOfByte_emod (signedChar : Bool) (b : Nat) (hb : b < 256) :
    charOfByte signedChar b % 256 = (b : Int) := by
  unfold charOfByte
  split <;> omega

theorem charOfByte_ne_zero (signedChar : Bool) (b : Nat) (h0 : 0 < b) (hb : b < 256) :
    charOfByte signedChar b ≠ 0 := by
  unfold charOfByte
  split <;> omega

theorem charOfByte_of_lt (signedChar : Bool) (b : Nat) (hb : b < 128) :
    charOfByte signedChar b = (b : Int) := by
  unfold charOfByte
  have : decide (128 ≤ b) = false := by simp; omega
  simp [this]

theorem isSafeByte_lt (b : Nat) (h : isSafeByte b = true) : b < 128 := by
  simp only [isSafeByte, Bool.or_eq_true, Bool.and_eq_true, decide_eq_true_eq] at h
  omega

set_option maxRecDepth 100000 in
theorem count_ignore_chars_nat :
    ∀ b : Nat, b < 256 → ((ignore_chars.count (b : Int) = 0) ↔ (isSafeByte b = false)) := by
  decide

set_option maxRecDepth 100000 in
theorem count_ignore_chars_neg :
    ∀ b : Nat, b < 256 → 128 ≤ b → ignore_chars.count ((b : Int) - 256) = 0 := by
  decide

theorem count_ignore_chars (signedChar : Bool) (b : Nat) (hb : b < 256) :
    ignore_chars.count (charOfByte signedChar b) = 0 ↔ isSafeByte b = false := by
  by_cases h : (signedChar && decide (128 ≤ b)) = true
  · have h128 : 128 ≤ b := by
      simp only [Bool.and_eq_true, decide_eq_true_eq] at h
      exact h.2
    have hc : charOfByte signedChar b = (b : Int) - 256 := by simp [charOfByte, h]
    have hns : isSafeByte b = false := by
      cases hsafe : isSafeByte b
      · rfl
      · have := isSafeByte_lt b hsafe
        omega
    rw [hc]
    exact ⟨fun _ => hns, fun _ => count_ignore_chars_neg b hb h128⟩
  · have hc : charOfByte signedChar b = (b : Int) := by simp [charOfByte, h]
    rw [hc]
    exact count_ignore_chars_nat b hb

set_option maxRecDepth 100000 in
theorem hex_field :
    ∀ b : Nat, b < 256 → 0 < b →
      List.replicate (2 - (OStringStream.natDigits 16 true 32 b []).length) (48 : Int)
          ++ OStringStream.natDigits 16 true 32 b []
        = [upperHexDigit (b / 16), upperHexDigit (b % 16)] := by
  decide

theorem groupAux_nil (sep : Int) (fuel : Nat) (ds : List Int) :
    OStringStream.groupAux sep fuel [] ds = ds := by
  cases fuel <;> rfl

theorem groupDigits_of_nil (os : OStringStream) (ds : List Int) (h : os.grouping = []) :
    os.groupDigits ds = ds := by
  simp [OStringStream.groupDigits, h, groupAux_nil]

/-- A write at the end of the buffer appends. -/
theorem write_at_end (w : List Int) (os : OStringStream) (h : os.pos = os.content.length) :
    os.write w = { os with content := os.content ++ w, pos := os.pos + w.length } := by
  simp [OStringStream.write, h]

/-- The insertion of a character into a plain stream appends the character. -/
theorem putChar_plain (c : Int) (os : OStringStream) (h : Plain os) :
    OStringStream.putChar c os
      = { os with content := os.content ++ [c], pos := os.pos + 1, width := 0 } := by
  obtain ⟨hg, hp, hw, -, -⟩ := h
  have hpad : os.width - 1 = 0 := by omega
  simp only [OStringStream.putChar, hg, if_true, OStringStream.padding, hpad,
    List.replicate_zero, List.nil_append]
  split <;> simp [write_at_end _ os hp, hg]

/-- The insertion of a byte value as the loop body prepares it (fill `'0'`, `right`, width
2, `uppercase`, `hex`) into a good stream at its end, with `showbase` off and no grouping,
appends the two uppercase hexadecimal digits of the byte. -/
theorem putInt_hex (b : Nat) (os : OStringStream) (h0 : 0 < b) (hb : b < 256)
    (hg : os.good = true) (hp : os.pos = os.content.length) (hsb : os.showbase = false)
    (hgr : os.grouping = []) :
    OStringStream.putInt (b : Int)
        (OStringStream.hex (OStringStream.setUppercase (OStringStream.setw 2
          (OStringStream.right (OStringStream.setfill (charCode '0') os)))))
      = { os with content := os.content ++ [upperHexDigit (b / 16), upperHexDigit (b % 16)],
                  pos := os.pos + 2, fill := charCode '0', width := 0,
                  adjustfield := AdjustField.right, basefield := BaseField.hex,
                  uppercase := true } := by
  have hu : ((b : Int) % 4294967296).toNat = b := by omega
  have hfield := hex_field b hb h0
  have hlen := congrArg List.length hfield
  simp only [List.length_append, List.length_replicate, List.length_cons, List.length_nil]
    at hlen
  have hpad : List.replicate (2 - (0 + (OStringStream.natDigits 16 true 32 b []).length))
      (charCode '0') ++ [] ++ OStringStream.natDigits 16 true 32 b []
        = [upperHexDigit (b / 16), upperHexDigit (b % 16)] := by
    rw [Nat.zero_add, List.append_nil]
    exact hfield
  simp only [OStringStream.putInt, OStringStream.intRepr, OStringStream.hex,
    OStringStream.setUppercase, OStringStream.setw, OStringStream.right,
    OStringStream.setfill, OStringStream.padding, OStringStream.groupDigits, hg, hsb, hgr, hu,
    groupAux_nil, List.reverse_reverse, if_true, Bool.false_and, Bool.false_eq_true, if_false,
    List.length_nil, hpad, OStringStream.write, hp, List.take_length, List.length_cons]
  simp

/-- The effect of one loop pass on a plain stream: the specification's image of the byte is
appended and the stream is plain again. -/
theorem encodeChar_spec (signedChar : Bool) (b : Nat) (os : OStringStream)
    (h0 : 0 < b) (hb : b < 256) (hplain : Plain os) :
    (encodeChar (charOfByte signedChar b) os).content = os.content ++ escapeByte b ∧
    Plain (encodeChar (charOfByte signedChar b) os) := by
  obtain ⟨hg, hp, hw, hsb, hgr⟩ := hplain
  have hchar := fun c => putChar_plain c os ⟨hg, hp, hw, hsb, hgr⟩
  cases hsafe : isSafeByte b
  · have hcount := (count_ignore_chars signedChar b hb).2 hsafe
    have hint := putInt_hex b (OStringStream.putChar (charCode '%') os) h0 hb
      (by rw [hchar]; exact hg) (by rw [hchar]; simp [hp]) (by rw [hchar]; exact hsb)
      (by rw [hchar]; exact hgr)
    rw [encodeChar, if_pos hcount, charOfByte_emod signedChar b hb, hint, hchar]
    refine ⟨by simp [escapeByte, hsafe], hg, by simp [hp], by simp, hsb, hgr⟩
  · have hcount : ignore_chars.count (charOfByte signedChar b) ≠ 0 := by
      intro h
      have := (count_ignore_chars signedChar b hb).1 h
      simp [hsafe] at this
    rw [encodeChar, if_neg hcount, charOfByte_of_lt signedChar b (isSafeByte_lt b hsafe),
      hchar]
    exact ⟨by simp [escapeByte, hsafe], hg, by simp [hp], by simp, hsb, hgr⟩

/-! ## The loop -/

/-- The call on a terminated NUL-free string, from a plain stream, returns, and appends the
specification's output to the stream; what lies behind the terminator is not read. -/
theorem encodeURIComponent_spec (signedChar : Bool) (s : List Nat) (rest : List Int)
    (os : OStringStream) (hs : NulFree s) (hplain : Plain os) :
    ∃ os', encodeURIComponent (charsOfBytes signedChar s ++ 0 :: rest) os = some os' ∧
      os'.content = os.content ++ percentEncode s := by
  induction s generalizing os with
  | nil => exact ⟨os, by simp [charsOfBytes, encodeURIComponent, percentEncode]⟩
  | cons b s ih =>
    have hb := hs b (List.mem_cons_self b s)
    have hne := charOfByte_ne_zero signedChar b hb.1 hb.2
    obtain ⟨hc, hplain'⟩ := encodeChar_spec signedChar b os hb.1 hb.2 hplain
    obtain ⟨os', hrun, hcontent⟩ :=
      ih (encodeChar (charOfByte signedChar b) os)
        (fun x hx => hs x (List.mem_cons_of_mem b hx)) hplain'
    refine ⟨os', ?_, ?_⟩
    · simpa [charsOfBytes, encodeURIComponent, hne] using hrun
    · rw [hcontent, hc]
      simp [percentEncode]

theorem plain_fresh : Plain OStringStream.fresh := by
  decide

theorem encode_eq (signedChar : Bool) (s : List Nat) (hs : NulFree s) :
    encode (charsOfBytes signedChar s) = some (percentEncode s) := by
  obtain ⟨os', hrun, hcontent⟩ :=
    encodeURIComponent_spec signedChar s [] OStringStream.fresh hs plain_fresh
  rw [encode, hrun, Option.map_some', hcontent]
  rfl

theorem length_percentEncode (s : List Nat) :
    (percentEncode s).length = s.length + 2 * s.countP (fun b => !isSafeByte b) := by
  induction s with
  | nil => rfl
  | cons b s ih =>
    have hcons : percentEncode (b :: s) = escapeByte b ++ percentEncode s := by
      simp [percentEncode]
    rw [hcons, List.length_append, ih, List.countP_cons]
    cases hsafe : isSafeByte b <;> simp [escapeByte, hsafe] <;> omega

/-! ## The shape of the output -/

set_option maxRecDepth 100000 in
theorem isToken_escapeByte : ∀ b : Nat, b < 256 → 0 < b → isToken (escapeByte b) = true := by
  decide

set_option maxRecDepth 100000 in
theorem escapeByte_chars :
    ∀ b : Nat, b < 256 →
      (escapeByte b).all (fun c => isSafeChar c || decide (c = charCode '%')) = true := by
  decide

set_option maxRecDepth 100000 in
theorem isUpperHexChar_upperHexDigit :
    ∀ d : Nat, d < 16 → isUpperHexChar (upperHexDigit d) = true := by
  decide

theorem percentEncode_chars (s : List Nat) (hs : NulFree s) :
    ∀ c ∈ percentEncode s, isSafeChar c = true ∨ c = charCode '%' := by
  intro c hc
  simp only [percentEncode, List.mem_flatten, List.mem_map] at hc
  obtain ⟨t, ⟨b, hb, rfl⟩, hct⟩ := hc
  have hall := escapeByte_chars b (hs b hb).2
  rw [List.all_eq_true] at hall
  simpa using hall c hct

theorem isSafeChar_range (c : Int) (h : isSafeChar c = true) : 0 < c ∧ c < 128 := by
  simp only [isSafeChar, isSafeByte, Bool.or_eq_true, Bool.and_eq_true, decide_eq_true_eq] at h
  omega

theorem percentEncode_range (s : List Nat) (hs : NulFree s) :
    ∀ c ∈ percentEncode s, 0 < c ∧ c < 128 := by
  intro c hc
  rcases percentEncode_chars s hs c hc with h | h
  · exact isSafeChar_range c h
  · subst h
    decide

theorem charsOfBytes_toNat (signedChar : Bool) (l : List Int)
    (h : ∀ c ∈ l, 0 < c ∧ c < 128) : charsOfBytes signedChar (l.map Int.toNat) = l := by
  induction l with
  | nil => rfl
  | cons c l ih =>
    have hc := h c (List.mem_cons_self c l)
    have hl := ih (fun x hx => h x (List.mem_cons_of_mem c hx))
    simp only [charsOfBytes, List.map_cons, List.cons.injEq] at hl ⊢
    refine ⟨?_, hl⟩
    rw [charOfByte_of_lt signedChar c.toNat (by omega)]
    omega

theorem percent_mem_percentEncode (s : List Nat) (b : Nat) (hb : b ∈ s)
    (hns : isSafeByte b = false) : charCode '%' ∈ percentEncode s := by
  simp only [percentEncode, List.mem_flatten, List.mem_map]
  exact ⟨escapeByte b, ⟨b, hb, rfl⟩, by simp [escapeByte, hns]⟩

/-! ## The set `ignore_chars` -/

set_option maxRecDepth 1000000 in
theorem ignore_chars_nodup : ignore_chars.Nodup ∧ ignore_chars.length = 71 := by
  decide

set_option maxRecDepth 1000000 in
theorem ignore_chars_safe : ∀ c ∈ ignore_chars, isSafeChar c = true := by
  decide

set_option maxRecDepth 1000000 in
theorem isSafeByte_count : ((List.range 256).filter isSafeByte).length = 71 := by
  decide

theorem nulFree_singleton (b : Nat) (h0 : 0 < b) (hb : b < 256) : NulFree [b] := by
  intro x hx
  rw [List.mem_singleton] at hx
  subst hx
  exact ⟨h0, hb⟩

/-! ## Any good stream state -/

theorem charsOfBytes_ne_zero (signedChar : Bool) (s : List Nat) (hs : NulFree s) :
    ∀ c ∈ charsOfBytes signedChar s, c ≠ 0 := by
  intro c hc
  simp only [charsOfBytes, List.mem_map] at hc
  obtain ⟨b, hb, rfl⟩ := hc
  exact charOfByte_ne_zero signedChar b (hs b hb).1 (hs b hb).2

theorem good_putChar (c : Int) (os : OStringStream) :
    (OStringStream.putChar c os).good = os.good := by
  unfold OStringStream.putChar
  split <;> rfl

theorem formatState_putChar (c : Int) (os : OStringStream) (hg : os.good = true) :
    formatState (OStringStream.putChar c os) = afterWrite (formatState os) := by
  unfold OStringStream.putChar
  rw [if_pos hg]
  rfl

theorem formatState_putInt (v : Int) (os : OStringStream) (hg : os.good = true) :
    formatState (OStringStream.putInt v os) = afterWrite (formatState os) := by
  unfold OStringStream.putInt
  rw [if_pos hg]
  rfl

/-- The formatting state after one loop pass on a good stream. -/
theorem formatState_encodeChar (c : Int) (os : OStringStream) (hg : os.good = true) :
    formatState (encodeChar c os)
      = if ignore_chars.count c = 0 then afterEscape (formatState os)
        else afterWrite (formatState os) := by
  unfold encodeChar
  split
  · have hg1 : (OStringStream.putChar (charCode '%') os).good = true := by
      rw [good_putChar]
      exact hg
    rw [formatState_putInt _ _ (by exact hg1)]
    have hset : ∀ x : OStringStream,
        formatState (OStringStream.hex (OStringStream.setUppercase (OStringStream.setw 2
          (OStringStream.right (OStringStream.setfill (charCode '0') x)))))
        = { formatState x with
              fill := charCode '0', width := 2, adjustfield := AdjustField.right,
              basefield := BaseField.hex, uppercase := true } := fun _ => rfl
    rw [hset, formatState_putChar _ _ hg]
    rfl
  · exact formatState_putChar c os hg

/-- A good stream is good after a loop pass. -/
theorem good_encodeChar (c : Int) (os : OStringStream) (hg : os.good = true) :
    (encodeChar c os).good = true := by
  have h := congrArg OStringStream.good (formatState_encodeChar c os hg)
  rw [show (formatState (encodeChar c os)).good = (encodeChar c os).good from rfl] at h
  rw [h]
  split <;> exact hg

/-- The formatting state after the call, from every good stream state: untouched by the
empty string, with the width reset by a string of characters of `ignore_chars`, and with
fill, adjustfield, basefield and uppercase overwritten as soon as one character is
escaped. -/
theorem formatState_encodeURIComponent (str rest : List Int) (os : OStringStream)
    (hstr : ∀ c ∈ str, c ≠ 0) (hg : os.good = true) :
    ∃ os', encodeURIComponent (str ++ 0 :: rest) os = some os' ∧
      formatState os' =
        if str = [] then formatState os
        else if str.all (fun c => decide (ignore_chars.count c ≠ 0)) then
          afterWrite (formatState os)
        else afterEscape (formatState os) := by
  induction str generalizing os with
  | nil => exact ⟨os, by simp [encodeURIComponent], by simp⟩
  | cons c str ih =>
    have hc := hstr c (List.mem_cons_self c str)
    obtain ⟨os', hrun, hfmt⟩ :=
      ih (encodeChar c os) (fun x hx => hstr x (List.mem_cons_of_mem c hx))
        (good_encodeChar c os hg)
    refine ⟨os', by simpa [encodeURIComponent, hc] using hrun, ?_⟩
    rw [hfmt, formatState_encodeChar c os hg, if_neg (List.cons_ne_nil c str), List.all_cons]
    by_cases h1 : ignore_chars.count c = 0 <;> by_cases h2 : str = [] <;>
      cases h3 : str.all (fun c => decide (ignore_chars.count c ≠ 0)) <;>
      simp only [h1, h2, h3, if_true, if_false, ne_eq, not_true_eq_false, not_false_eq_true,
        decide_True, decide_False, Bool.and_true, Bool.and_false, Bool.false_eq_true,
        List.all_nil] <;>
      first | rfl | (subst h2; simp at h3)

theorem all_count_charsOfBytes (signedChar : Bool) (s : List Nat) (hs : NulFree s) :
    (charsOfBytes signedChar s).all (fun c => decide (ignore_chars.count c ≠ 0))
      = s.all isSafeByte := by
  induction s with
  | nil => rfl
  | cons b s ih =>
    have hb := hs b (List.mem_cons_self b s)
    have htail := ih (fun x hx => hs x (List.mem_cons_of_mem b hx))
    have hcount := count_ignore_chars signedChar b hb.2
    simp only [charsOfBytes, List.map_cons, List.all_cons] at htail ⊢
    rw [htail]
    congr 1
    cases hsafe : isSafeByte b
    · simp [hcount.2 hsafe]
    · have hne : ignore_chars.count (charOfByte signedChar b) ≠ 0 := by
        intro hzero
        have := hcount.1 hzero
        simp [hsafe] at this
      simp [hne]

/-! ## Streams that are not plain -/

/-- With `showbase` on in the caller's stream the escape of a byte carries the base mark
`0X`: the manipulators of the loop body set `hex` and `uppercase` but leave `showbase`
alone. -/
theorem escape_with_showbase :
    (encodeURIComponent (ascii " " ++ [0])
        { OStringStream.fresh with showbase := true }).map OStringStream.content
      = some (ascii "%0X20") := by
  decide

/-- With a locale that groups digits by one the two digits of an escape are separated. -/
theorem escape_with_grouping :
    (encodeURIComponent ([32, 97, -61] ++ [0])
        { OStringStream.fresh with grouping := [1] }).map OStringStream.content
      = some (ascii "%2,0a%C,3") := by
  decide

/-- A stream that is not good receives no character; the manipulators of the loop body
still act on it and the field width 2 of an escape stays pending. -/
theorem stream_not_good :
    encodeURIComponent (ascii " " ++ [0]) { OStringStream.fresh with good := false }
      = some { OStringStream.fresh with
                 good := false, fill := charCode '0', width := 2,
                 adjustfield := AdjustField.right, basefield := BaseField.hex,
                 uppercase := true } ∧
    encodeURIComponent (ascii "a" ++ [0]) { OStringStream.fresh with good := false, width := 5 }
      = some { OStringStream.fresh with good := false, width := 5 } := by
  decide

/-- A stream whose put position is inside its buffer has the characters there replaced. -/
theorem stream_repositioned :
    (encodeURIComponent (ascii "a" ++ [0])
        { OStringStream.fresh with content := ascii "q=xy" }).map OStringStream.content
      = some (ascii "a=xy") := by
  decide

/-! ## Concatenation and injectivity -/

theorem percentEncode_cons (b : Nat) (s : List Nat) :
    percentEncode (b :: s) = escapeByte b ++ percentEncode s := by
  simp [percentEncode]

theorem percentEncode_append (s t : List Nat) :
    percentEncode (s ++ t) = percentEncode s ++ percentEncode t := by
  simp [percentEncode]

theorem upperHexDigit_injective :
    ∀ d : Nat, d < 16 → ∀ e : Nat, e < 16 → upperHexDigit d = upperHexDigit e → d = e := by
  decide

set_option maxRecDepth 100000 in
theorem escapeByte_ne_nul_escape :
    ∀ b : Nat, b < 256 → 0 < b → escapeByte b ≠ escapeOf 0 := by
  decide

theorem escapeByte_head (b : Nat) :
    ∃ tl, escapeByte b = (if isSafeByte b then (b : Int) else 37) :: tl := by
  unfold escapeByte
  split
  · exact ⟨[], rfl⟩
  · exact ⟨_, rfl⟩

theorem escapeByte_injective (a b : Nat) (ha : a < 256) (hb : b < 256) (u v : List Int)
    (h : escapeByte a ++ u = escapeByte b ++ v) : a = b ∧ u = v := by
  have h37 : isSafeByte 37 = false := by decide
  cases hsa : isSafeByte a <;> cases hsb : isSafeByte b <;>
    simp only [escapeByte, hsa, hsb, if_true, if_false, Bool.false_eq_true, List.cons_append,
      List.nil_append, List.cons.injEq] at h
  · obtain ⟨-, h1, h2, huv⟩ := h
    have hq := upperHexDigit_injective (a / 16) (by omega) (b / 16) (by omega) h1
    have hr := upperHexDigit_injective (a % 16) (Nat.mod_lt _ (by decide)) (b % 16)
      (Nat.mod_lt _ (by decide)) h2
    exact ⟨by omega, huv⟩
  · have hb37 : b = 37 := by
      have := h.1
      simp only [charCode] at this
      have h' : ((37 : Nat) : Int) = (b : Int) := this
      exact (Int.ofNat_inj.mp h').symm
    rw [hb37, h37] at hsb
    exact absurd hsb (by decide)
  · have ha37 : a = 37 := by
      have := h.1
      simp only [charCode] at this
      have h' : (a : Int) = ((37 : Nat) : Int) := this
      exact Int.ofNat_inj.mp h'
    rw [ha37, h37] at hsa
    exact absurd hsa (by decide)
  · exact ⟨Int.ofNat_inj.mp h.1, h.2⟩

theorem percentEncode_injective (s t : List Nat) (hs : NulFree s) (ht : NulFree t)
    (h : percentEncode s = percentEncode t) : s = t := by
  induction s generalizing t with
  | nil =>
    cases t with
    | nil => rfl
    | cons b t =>
      obtain ⟨tl, htl⟩ := escapeByte_head b
      rw [percentEncode_cons, htl] at h
      exact absurd h (by simp [percentEncode])
  | cons a s ih =>
    cases t with
    | nil =>
      obtain ⟨tl, htl⟩ := escapeByte_head a
      rw [percentEncode_cons, htl] at h
      exact absurd h (by simp [percentEncode])
    | cons b t =>
      rw [percentEncode_cons, percentEncode_cons] at h
      obtain ⟨hab, hrest⟩ := escapeByte_injective a b (hs a (List.mem_cons_self a s)).2
        (ht b (List.mem_cons_self b t)).2 _ _ h
      rw [hab, ih t (fun x hx => hs x (List.mem_cons_of_mem a hx))
        (fun x hx => ht x (List.mem_cons_of_mem b hx)) hrest]

/-! ## The claims -/

/-- C1: for every NUL-free byte string `s`, passed as a terminated string of signed or of
unsigned `char`s, and a default-constructed (empty) stream, the call returns and the stream
then holds exactly the in-order concatenation of the images of the bytes of `s`: the byte
itself when it is in the safe set, otherwise `%` and the two uppercase, zero-padded
hexadecimal digits of the byte read as an unsigned 8-bit value. -/
theorem encodeURIComponent_output (signedChar : Bool) (s : List Nat) (hs : NulFree s) :
    ∃ os', encodeURIComponent (charsOfBytes signedChar s ++ [0]) OStringStream.fresh = some os' ∧
      os'.content =
        (s.map (fun b =>
          if isSafeByte b then [(b : Int)]
          else [charCode '%', upperHexDigit (b / 16), upperHexDigit (b % 16)])).flatten := by
  obtain ⟨os', hrun, hcontent⟩ :=
    encodeURIComponent_spec signedChar s [] OStringStream.fresh hs plain_fresh
  refine ⟨os', hrun, ?_⟩
  rw [hcontent]
  rfl

theorem encodeURIComponent_output_witness :
    NulFree [99, 32, 195] ∧
    ∃ os', encodeURIComponent (charsOfBytes true [99, 32, 195] ++ [0]) OStringStream.fresh
        = some os' ∧
      os'.content =
        ([99, 32, 195].map (fun b =>
          if isSafeByte b then [(b : Int)]
          else [charCode '%', upperHexDigit (b / 16), upperHexDigit (b % 16)])).flatten :=
  ⟨by decide, encodeURIComponent_output true [99, 32, 195] (by decide)⟩

/-- C2: for every byte `b` of the safe set, encoding the one-byte input `[b]` yields exactly
the one-byte output `[b]`. -/
theorem encode_safe_byte (signedChar : Bool) (b : Nat) (hsafe : isSafeByte b = true) :
    encode (charsOfBytes signedChar [b]) = some [(b : Int)] := by
  have hlt := isSafeByte_lt b hsafe
  have h0 : 0 < b := by
    simp only [isSafeByte, Bool.or_eq_true, Bool.and_eq_true, decide_eq_true_eq] at hsafe
    omega
  have hs : NulFree [b] := by
    intro x hx
    rw [List.mem_singleton] at hx
    subst hx
    exact ⟨h0, by omega⟩
  rw [encode_eq signedChar [b] hs]
  simp [percentEncode, escapeByte, hsafe]

theorem encode_safe_byte_witness :
    isSafeByte 126 = true ∧ encode (charsOfBytes true [126]) = some [((126 : Nat) : Int)] :=
  ⟨by decide, encode_safe_byte true 126 (by decide)⟩

/-- C3: for every byte `b` in `0x01..0xFF` outside the safe set, held in a signed or in an
unsigned `char`, encoding the one-byte input `[b]` yields exactly three characters: `%`, the
uppercase hexadecimal digit of `b / 16` and the uppercase hexadecimal digit of `b % 16`,
with `b` read as unsigned. -/
theorem encode_escaped_byte (signedChar : Bool) (b : Nat) (h0 : 0 < b) (hb : b < 256)
    (hns : isSafeByte b = false) :
    encode (charsOfBytes signedChar [b])
        = some [charCode '%', upperHexDigit (b / 16), upperHexDigit (b % 16)] ∧
      isUpperHexChar (upperHexDigit (b / 16)) = true ∧
      isUpperHexChar (upperHexDigit (b % 16)) = true := by
  have hs : NulFree [b] := by
    intro x hx
    rw [List.mem_singleton] at hx
    subst hx
    exact ⟨h0, hb⟩
  refine ⟨?_, isUpperHexChar_upperHexDigit _ (by omega), isUpperHexChar_upperHexDigit _ (by omega)⟩
  rw [encode_eq signedChar [b] hs]
  simp [percentEncode, escapeByte, hns]

theorem encode_escaped_byte_witness :
    (0 < 195 ∧ 195 < 256 ∧ isSafeByte 195 = false) ∧
    (encode (charsOfBytes true [195])
        = some [charCode '%', upperHexDigit (195 / 16), upperHexDigit (195 % 16)] ∧
      isUpperHexChar (upperHexDigit (195 / 16)) = true ∧
      isUpperHexChar (upperHexDigit (195 % 16)) = true) :=
  ⟨by decide, encode_escaped_byte true 195 (by decide) (by decide) (by decide)⟩

/-- C4: for every NUL-free input `s`, the output of encoding `s` splits, left to right, into
tokens that are each one safe character or a three-character escape `%` `H1` `H2` with
`H1`, `H2` in `0-9`, `A-F`; and every output character is a safe character or `%`. -/
theorem encode_tokens (signedChar : Bool) (s : List Nat) (hs : NulFree s) :
    ∃ out, encode (charsOfBytes signedChar s) = some out ∧
      (∃ tokens : List (List Int), tokens.flatten = out ∧ ∀ t ∈ tokens, isToken t = true) ∧
      ∀ c ∈ out, isSafeChar c = true ∨ c = charCode '%' := by
  refine ⟨percentEncode s, encode_eq signedChar s hs, ⟨s.map escapeByte, rfl, ?_⟩,
    percentEncode_chars s hs⟩
  intro t ht
  rw [List.mem_map] at ht
  obtain ⟨b, hb, rfl⟩ := ht
  exact isToken_escapeByte b (hs b hb).2 (hs b hb).1

theorem encode_tokens_witness :
    NulFree [97, 32, 233] ∧
    ∃ out, encode (charsOfBytes true [97, 32, 233]) = some out ∧
      (∃ tokens : List (List Int), tokens.flatten = out ∧ ∀ t ∈ tokens, isToken t = true) ∧
      ∀ c ∈ out, isSafeChar c = true ∨ c = charCode '%' :=
  ⟨by decide, encode_tokens true [97, 32, 233] (by decide)⟩

/-- C5: for every NUL-free input `s`, the output is at least as long as `s`, and it is as
long as `s` if and only if every byte of `s` is in the safe set. -/
theorem encode_length_ge (signedChar : Bool) (s : List Nat) (hs : NulFree s) :
    ∃ out, encode (charsOfBytes signedChar s) = some out ∧
      s.length ≤ out.length ∧
      (out.length = s.length ↔ ∀ b ∈ s, isSafeByte b = true) := by
  refine ⟨percentEncode s, encode_eq signedChar s hs, ?_, ?_⟩
  · rw [length_percentEncode]
    omega
  · rw [length_percentEncode]
    constructor
    · intro h
      have hzero : s.countP (fun b => !isSafeByte b) = 0 := by omega
      rw [List.countP_eq_zero] at hzero
      intro b hb
      simpa using hzero b hb
    · intro h
      have hzero : s.countP (fun b => !isSafeByte b) = 0 := by
        rw [List.countP_eq_zero]
        intro b hb
        simp [h b hb]
      omega

theorem encode_length_ge_witness :
    NulFree [49, 37, 32] ∧
    ∃ out, encode (charsOfBytes false [49, 37, 32]) = some out ∧
      [49, 37, 32].length ≤ out.length ∧
      (out.length = [49, 37, 32].length ↔ ∀ b ∈ [49, 37, 32], isSafeByte b = true) :=
  ⟨by decide, encode_length_ge false [49, 37, 32] (by decide)⟩

/-- C6: for every NUL-free input `s`, each byte contributes one output character when it is
safe and three when it is not, so the output has `length s + 2 * n` characters, `n` being the
number of bytes of `s` outside the safe set. -/
theorem encode_length_eq (signedChar : Bool) (s : List Nat) (hs : NulFree s) :
    (∀ b ∈ s, ∃ t, encode (charsOfBytes signedChar [b]) = some t ∧
        t.length = if isSafeByte b then 1 else 3) ∧
    ∃ out, encode (charsOfBytes signedChar s) = some out ∧
      out.length = s.length + 2 * s.countP (fun b => !isSafeByte b) := by
  refine ⟨?_, percentEncode s, encode_eq signedChar s hs, length_percentEncode s⟩
  intro b hb
  have hsb : NulFree [b] := by
    intro x hx
    rw [List.mem_singleton] at hx
    subst hx
    exact hs x hb
  refine ⟨percentEncode [b], encode_eq signedChar [b] hsb, ?_⟩
  cases hsafe : isSafeByte b <;> simp [percentEncode, escapeByte, hsafe]

theorem encode_length_eq_witness :
    NulFree [104, 195, 169, 33] ∧
    ((∀ b ∈ [104, 195, 169, 33], ∃ t, encode (charsOfBytes true [b]) = some t ∧
        t.length = if isSafeByte b then 1 else 3) ∧
    ∃ out, encode (charsOfBytes true [104, 195, 169, 33]) = some out ∧
      out.length = [104, 195, 169, 33].length
        + 2 * [104, 195, 169, 33].countP (fun b => !isSafeByte b)) :=
  ⟨by decide, encode_length_eq true [104, 195, 169, 33] (by decide)⟩

/-- C7: encoding is not idempotent: for every NUL-free input `s` with at least one byte
outside the safe set, encoding the output of encoding `s` gives something other than that
output; `%` is not in `ignore_chars` and is itself encoded as `%25`. -/
theorem encode_not_idempotent (signedChar : Bool) (s : List Nat) (hs : NulFree s)
    (hns : ∃ b ∈ s, isSafeByte b = false) :
    (∃ out out2, encode (charsOfBytes signedChar s) = some out ∧
      encode out = some out2 ∧ out2 ≠ out) ∧
    ignore_chars.count (charCode '%') = 0 ∧
    encode [charCode '%'] = some (ascii "%25") := by
  refine ⟨?_, by decide, by decide⟩
  obtain ⟨b, hb, hbns⟩ := hns
  have hrange := percentEncode_range s hs
  have hback := charsOfBytes_toNat signedChar (percentEncode s) hrange
  have hnul : NulFree ((percentEncode s).map Int.toNat) := by
    intro x hx
    rw [List.mem_map] at hx
    obtain ⟨c, hc, rfl⟩ := hx
    have := hrange c hc
    omega
  have hsecond := encode_eq signedChar ((percentEncode s).map Int.toNat) hnul
  rw [hback] at hsecond
  refine ⟨percentEncode s, _, encode_eq signedChar s hs, hsecond, ?_⟩
  intro heq
  have hlen := congrArg List.length heq
  rw [length_percentEncode, List.length_map] at hlen
  have hpos : 0 < ((percentEncode s).map Int.toNat).countP (fun b => !isSafeByte b) := by
    rw [List.countP_pos_iff]
    refine ⟨37, ?_, by decide⟩
    rw [List.mem_map]
    exact ⟨charCode '%', percent_mem_percentEncode s b hb hbns, by decide⟩
  omega

theorem encode_not_idempotent_witness :
    (NulFree [97, 32, 98] ∧ ∃ b ∈ [97, 32, 98], isSafeByte b = false) ∧
    ((∃ out out2, encode (charsOfBytes true [97, 32, 98]) = some out ∧
      encode out = some out2 ∧ out2 ≠ out) ∧
    ignore_chars.count (charCode '%') = 0 ∧
    encode [charCode '%'] = some (ascii "%25")) :=
  ⟨⟨by decide, 32, by decide, by decide⟩,
    encode_not_idempotent true [97, 32, 98] (by decide) ⟨32, by decide, by decide⟩⟩

/-- C8: every byte from `0x80` upwards is outside `ignore_chars`, whether `char` is signed or
unsigned, and is escaped: for an input of `N` bytes that are all `0x80` or more, the output
is exactly the `N` three-character escapes of the bytes, in order, `3 * N` characters. -/
theorem encode_high_bytes (signedChar : Bool) (s : List Nat)
    (hs : ∀ b ∈ s, 128 ≤ b ∧ b < 256) :
    (∀ b ∈ s, ignore_chars.count (charOfByte signedChar b) = 0) ∧
    ∃ out, encode (charsOfBytes signedChar s) = some out ∧
      out = (s.map escapeOf).flatten ∧ out.length = 3 * s.length := by
  have hhigh : ∀ b ∈ s, isSafeByte b = false := by
    intro b hb
    cases hsafe : isSafeByte b
    · rfl
    · have := isSafeByte_lt b hsafe
      have := (hs b hb).1
      omega
  have hnul : NulFree s := fun b hb => ⟨by have := (hs b hb).1; omega, (hs b hb).2⟩
  have hmap : s.map escapeByte = s.map escapeOf := by
    apply List.map_congr_left
    intro b hb
    simp [escapeByte, escapeOf, hhigh b hb]
  refine ⟨fun b hb => (count_ignore_chars signedChar b (hs b hb).2).2 (hhigh b hb),
    percentEncode s, encode_eq signedChar s hnul, ?_, ?_⟩
  · rw [percentEncode, hmap]
  · have hcount : s.countP (fun b => !isSafeByte b) = s.length := by
      rw [List.countP_eq_length]
      intro b hb
      simp [hhigh b hb]
    rw [length_percentEncode, hcount]
    omega

theorem encode_high_bytes_witness :
    (∀ b ∈ [226, 130, 172], 128 ≤ b ∧ b < 256) ∧
    ((∀ b ∈ [226, 130, 172], ignore_chars.count (charOfByte true b) = 0) ∧
    ∃ out, encode (charsOfBytes true [226, 130, 172]) = some out ∧
      out = ([226, 130, 172].map escapeOf).flatten ∧ out.length = 3 * [226, 130, 172].length) :=
  ⟨by decide, encode_high_bytes true [226, 130, 172] (by decide)⟩

/-- C9: encoding the five bytes `c`, `a`, `f`, `0xC3`, `0xA9` (the UTF-8 form of "café"),
held in signed or in unsigned `char`s, yields exactly the nine characters `caf%C3%A9`. -/
theorem encode_cafe :
    ∀ signedChar : Bool,
      encode (charsOfBytes signedChar [99, 97, 102, 0xC3, 0xA9]) = some (ascii "caf%C3%A9") ∧
      (ascii "caf%C3%A9").length = 9 := by
  decide

/-- C10: the ASCII scenarios: `100% sure` is encoded as `100%25%20sure`, `a b` as `a%20b`,
`hello` as `hello`, and `(test)*'-_.!~` as itself. -/
theorem encode_ascii_scenarios :
    encode (ascii "100% sure") = some (ascii "100%25%20sure") ∧
    encode (ascii "a b") = some (ascii "a%20b") ∧
    encode (ascii "hello") = some (ascii "hello") ∧
    encode (ascii "(test)*'-_.!~") = some (ascii "(test)*'-_.!~") := by
  decide

/-- C11: the empty input, a string whose first character is the terminator, appends nothing:
the call returns the stream as it was, whatever its state and whatever lies behind the
terminator, and with a default-constructed stream the output is empty. -/
theorem encode_empty :
    (∀ (rest : List Int) (os : OStringStream), encodeURIComponent (0 :: rest) os = some os) ∧
    encodeURIComponent [0] OStringStream.fresh = some OStringStream.fresh ∧
    encode [] = some [] := by
  refine ⟨fun rest os => ?_, rfl, rfl⟩
  simp [encodeURIComponent]

set_option maxRecDepth 1000000 in
/-- C12, as the code has it: the set of bytes that the encoder passes through holds exactly
71 distinct byte values, for signed and for unsigned `char`, and `ignore_chars` lists 71
distinct characters. -/
theorem safeBytes_length :
    (∀ signedChar : Bool, (safeBytes signedChar).length = 71 ∧ (safeBytes signedChar).Nodup) ∧
    ignore_chars.dedup.length = 71 := by
  decide

set_option maxRecDepth 1000000 in
/-- C12 as stated fails: the set of bytes passed through does not hold 66 values. -/
theorem safeBytes_length_ne_66 :
    (safeBytes true).length ≠ 66 ∧ (safeBytes false).length ≠ 66 ∧
    ignore_chars.dedup.length ≠ 66 := by
  decide

/-- C13: the set of the encoder is exactly the unreserved set: a byte `b` of `0x01..0xFF` is
passed through unchanged if and only if it is one of `A-Z`, `a-z`, `0-9` or the nine
punctuation bytes, which is when its `char` is in `ignore_chars`; `ignore_chars` lists 71
characters (26 + 26 + 10 + 9) without duplicates, each of them in that set, and the set has
71 bytes. -/
theorem ignore_chars_unreserved (signedChar : Bool) (b : Nat) (h0 : 0 < b) (hb : b < 256) :
    (encode (charsOfBytes signedChar [b]) = some [(b : Int)] ↔ isSafeByte b = true) ∧
    (ignore_chars.count (charOfByte signedChar b) ≠ 0 ↔ isSafeByte b = true) ∧
    ignore_chars.Nodup ∧ ignore_chars.length = 26 + 26 + 10 + 9 ∧
    (∀ c ∈ ignore_chars, isSafeChar c = true) ∧
    ((List.range 256).filter isSafeByte).length = 71 := by
  refine ⟨?_, ?_, ignore_chars_nodup.1, ignore_chars_nodup.2, ignore_chars_safe,
    isSafeByte_count⟩
  · rw [encode_eq signedChar [b] (nulFree_singleton b h0 hb)]
    cases hsafe : isSafeByte b <;> simp [percentEncode, escapeByte, hsafe]
  · have h := count_ignore_chars signedChar b hb
    cases hsafe : isSafeByte b
    · simp [h.2 hsafe]
    · simp only [ne_eq, iff_true]
      intro hzero
      have := h.1 hzero
      simp [hsafe] at this

theorem ignore_chars_unreserved_witness :
    (0 < 42 ∧ 42 < 256) ∧
    ((encode (charsOfBytes true [42]) = some [((42 : Nat) : Int)] ↔ isSafeByte 42 = true) ∧
    (ignore_chars.count (charOfByte true 42) ≠ 0 ↔ isSafeByte 42 = true) ∧
    ignore_chars.Nodup ∧ ignore_chars.length = 26 + 26 + 10 + 9 ∧
    (∀ c ∈ ignore_chars, isSafeChar c = true) ∧
    ((List.range 256).filter isSafeByte).length = 71) :=
  ⟨by decide, ignore_chars_unreserved true 42 (by decide) (by decide)⟩

/-- C14, as the code has it: the encoder appends to a plain stream: for every prior content
`p` of a stream that is in a good state, has its put position at the end of `p`, no pending
field width, `showbase` off and a locale without digit grouping, and for every NUL-free
input, the call returns and the content after it is `p` followed by the encoding of the
input. -/
theorem encodeURIComponent_appends (signedChar : Bool) (p : List Int) (s : List Nat)
    (os : OStringStream) (hs : NulFree s) (hp : os.content = p) (hplain : Plain os) :
    ∃ os' out, encodeURIComponent (charsOfBytes signedChar s ++ [0]) os = some os' ∧
      encode (charsOfBytes signedChar s) = some out ∧ os'.content = p ++ out := by
  subst hp
  obtain ⟨os', hrun, hcontent⟩ := encodeURIComponent_spec signedChar s [] os hs hplain
  exact ⟨os', percentEncode s, hrun, encode_eq signedChar s hs, hcontent⟩

theorem encodeURIComponent_appends_witness :
    (NulFree [97, 32] ∧ usedStream.content = [120] ∧ Plain usedStream) ∧
    ∃ os' out, encodeURIComponent (charsOfBytes true [97, 32] ++ [0]) usedStream = some os' ∧
      encode (charsOfBytes true [97, 32]) = some out ∧ os'.content = [120] ++ out :=
  ⟨⟨by decide, rfl, by decide⟩,
    encodeURIComponent_appends true [120] [97, 32] usedStream (by decide) rfl (by decide)⟩

/-- C14 as stated fails: a stream constructed on the string `q=` holds `q=` with its put
position at the start; after encoding `a`, space into it the stream holds `a%20`, which is
the encoding of the input written over the prior content, not behind it. -/
theorem prior_content_overwritten :
    (encodeURIComponent (ascii "a " ++ [0])
        { OStringStream.fresh with content := ascii "q=" }).map OStringStream.content
      = some (ascii "a%20") ∧
    encode (ascii "a ") = some (ascii "a%20") ∧
    ascii "a%20" ≠ ascii "q=" ++ ascii "a%20" := by
  decide

/-- C15, as the code has it: from every good stream state the call on a NUL-free input
returns, and the formatting state it leaves is the one before the call for the empty input,
the one before the call with the field width reset to `0` when every byte is safe, and the
one before the call with fill `'0'`, `right`, `hex`, `uppercase` set and the width reset to
`0` when a byte is escaped (showbase and showpos are never changed). -/
theorem encodeURIComponent_formatState (signedChar : Bool) (s : List Nat) (os : OStringStream)
    (hs : NulFree s) (hg : os.good = true) :
    ∃ os', encodeURIComponent (charsOfBytes signedChar s ++ [0]) os = some os' ∧
      os'.showbase = os.showbase ∧ os'.showpos = os.showpos ∧
      formatState os' =
        if s = [] then formatState os
        else if s.all isSafeByte then afterWrite (formatState os)
        else afterEscape (formatState os) := by
  obtain ⟨os', hrun, hfmt⟩ := formatState_encodeURIComponent (charsOfBytes signedChar s) []
    os (charsOfBytes_ne_zero signedChar s hs) hg
  rw [all_count_charsOfBytes signedChar s hs] at hfmt
  have hnil : charsOfBytes signedChar s = [] ↔ s = [] := by
    simp [charsOfBytes]
  simp only [hnil] at hfmt
  have hfields : os'.showbase = os.showbase ∧ os'.showpos = os.showpos := by
    have h1 := congrArg OStringStream.showbase hfmt
    have h2 := congrArg OStringStream.showpos hfmt
    constructor
    · rw [show os'.showbase = (formatState os').showbase from rfl, h1]
      split
      · rfl
      · split <;> rfl
    · rw [show os'.showpos = (formatState os').showpos from rfl, h2]
      split
      · rfl
      · split <;> rfl
  exact ⟨os', hrun, hfields.1, hfields.2, hfmt⟩

theorem encodeURIComponent_formatState_witness :
    (NulFree [97, 32] ∧ usedStream.good = true) ∧
    ∃ os', encodeURIComponent (charsOfBytes true [97, 32] ++ [0]) usedStream = some os' ∧
      os'.showbase = usedStream.showbase ∧ os'.showpos = usedStream.showpos ∧
      formatState os' =
        if [97, 32] = ([] : List Nat) then formatState usedStream
        else if [97, 32].all isSafeByte then afterWrite (formatState usedStream)
        else afterEscape (formatState usedStream) :=
  ⟨⟨by decide, rfl⟩,
    encodeURIComponent_formatState true [97, 32] usedStream (by decide) rfl⟩

/-- C15 as stated fails: after encoding the one byte `0x20` into a default-constructed
stream the formatting state is not the one before the call: fill is `'0'`, adjustfield is
`right`, basefield is `hex` and uppercase is on, so that an `int` written next comes out in
hexadecimal. -/
theorem formatState_changed :
    ∃ os', encodeURIComponent (charsOfBytes true [32] ++ [0]) OStringStream.fresh = some os' ∧
      formatState os' ≠ formatState OStringStream.fresh ∧
      os'.fill = charCode '0' ∧ OStringStream.fresh.fill = charCode ' ' ∧
      os'.adjustfield = AdjustField.right ∧ os'.basefield = BaseField.hex ∧
      os'.uppercase = true ∧
      (OStringStream.putInt 255 os').content = ascii "%20FF" ∧
      (OStringStream.putInt 255 OStringStream.fresh).content = ascii "255" := by
  refine ⟨_, rfl, ?_⟩
  decide

/-- C16, as the code has it: for every NUL-free input and any two initial stream states
that are in a good state, have the put position at the end of their content, no pending
field width, `showbase` off and a locale without digit grouping, whatever their content,
fill, adjustfield, basefield, uppercase and showpos, the call appends the same characters
to both, namely the encoding of the input. -/
theorem encodeURIComponent_same_output (signedChar : Bool) (s : List Nat)
    (os1 os2 : OStringStream) (hs : NulFree s) (h1 : Plain os1) (h2 : Plain os2) :
    ∃ o1 o2 app, encodeURIComponent (charsOfBytes signedChar s ++ [0]) os1 = some o1 ∧
      encodeURIComponent (charsOfBytes signedChar s ++ [0]) os2 = some o2 ∧
      o1.content = os1.content ++ app ∧ o2.content = os2.content ++ app ∧
      encode (charsOfBytes signedChar s) = some app := by
  obtain ⟨o1, hrun1, hc1⟩ := encodeURIComponent_spec signedChar s [] os1 hs h1
  obtain ⟨o2, hrun2, hc2⟩ := encodeURIComponent_spec signedChar s [] os2 hs h2
  exact ⟨o1, o2, percentEncode s, hrun1, hrun2, hc1, hc2, encode_eq signedChar s hs⟩

theorem encodeURIComponent_same_output_witness :
    (NulFree [97, 32, 233] ∧ Plain OStringStream.fresh ∧ Plain usedStream) ∧
    ∃ o1 o2 app, encodeURIComponent (charsOfBytes true [97, 32, 233] ++ [0])
        OStringStream.fresh = some o1 ∧
      encodeURIComponent (charsOfBytes true [97, 32, 233] ++ [0]) usedStream = some o2 ∧
      o1.content = OStringStream.fresh.content ++ app ∧
      o2.content = usedStream.content ++ app ∧
      encode (charsOfBytes true [97, 32, 233]) = some app :=
  ⟨⟨by decide, by decide, by decide⟩,
    encodeURIComponent_same_output true [97, 32, 233] OStringStream.fresh usedStream
      (by decide) (by decide) (by decide)⟩

/-- C16 as stated fails: on the input `a`, a default-constructed stream receives `a` and
the same stream with a pending field width of 5 receives four fill characters and `a`. -/
theorem output_depends_on_width :
    (encodeURIComponent (ascii "a" ++ [0]) OStringStream.fresh).map OStringStream.content
      = some (ascii "a") ∧
    (encodeURIComponent (ascii "a" ++ [0])
        { OStringStream.fresh with width := 5 }).map OStringStream.content
      = some (ascii "    a") ∧
    ascii "a" ≠ ascii "    a" := by
  decide

/-- C17: the encoder stops at the first NUL: for every buffer `s ++ [0] ++ t` with `s`
NUL-free the call returns and the output is exactly the encoding of `s`, whatever `t` is;
the output holds no NUL character and none of its tokens is the escape `%00`. -/
theorem encodeURIComponent_stops_at_nul (signedChar : Bool) (s : List Nat) (t : List Int)
    (hs : NulFree s) :
    ∃ os' out, encodeURIComponent (charsOfBytes signedChar s ++ [0] ++ t) OStringStream.fresh
        = some os' ∧
      encode (charsOfBytes signedChar s) = some out ∧ os'.content = out ∧
      out = (s.map escapeByte).flatten ∧ (0 : Int) ∉ out ∧
      ∀ b ∈ s, escapeByte b ≠ escapeOf 0 := by
  obtain ⟨os', hrun, hcontent⟩ :=
    encodeURIComponent_spec signedChar s t OStringStream.fresh hs plain_fresh
  refine ⟨os', percentEncode s, ?_, encode_eq signedChar s hs, ?_, rfl, ?_, ?_⟩
  · rw [List.append_assoc]
    exact hrun
  · rw [hcontent]
    rfl
  · intro hmem
    have := percentEncode_range s hs 0 hmem
    omega
  · intro b hb
    exact escapeByte_ne_nul_escape b (hs b hb).2 (hs b hb).1

theorem encodeURIComponent_stops_at_nul_witness :
    NulFree [97, 32] ∧
    ∃ os' out, encodeURIComponent (charsOfBytes true [97, 32] ++ [0] ++ [98, 0, -61])
        OStringStream.fresh = some os' ∧
      encode (charsOfBytes true [97, 32]) = some out ∧ os'.content = out ∧
      out = ([97, 32].map escapeByte).flatten ∧ (0 : Int) ∉ out ∧
      ∀ b ∈ [97, 32], escapeByte b ≠ escapeOf 0 :=
  ⟨by decide, encodeURIComponent_stops_at_nul true [97, 32] [98, 0, -61] (by decide)⟩

/-- C18: encoding is a homomorphism for concatenation: for all NUL-free inputs `s` and `t`
the encoding of `s` followed by `t` is the encoding of `s` followed by the encoding of
`t`. -/
theorem encode_append (signedChar : Bool) (s t : List Nat) (hs : NulFree s) (ht : NulFree t) :
    ∃ a b, encode (charsOfBytes signedChar s) = some a ∧
      encode (charsOfBytes signedChar t) = some b ∧
      encode (charsOfBytes signedChar s ++ charsOfBytes signedChar t) = some (a ++ b) := by
  have hst : NulFree (s ++ t) := by
    intro x hx
    rcases List.mem_append.mp hx with h | h
    · exact hs x h
    · exact ht x h
  have happ : charsOfBytes signedChar s ++ charsOfBytes signedChar t
      = charsOfBytes signedChar (s ++ t) := by
    simp [charsOfBytes]
  refine ⟨percentEncode s, percentEncode t, encode_eq signedChar s hs,
    encode_eq signedChar t ht, ?_⟩
  rw [happ, encode_eq signedChar (s ++ t) hst, percentEncode_append]

theorem encode_append_witness :
    (NulFree [97, 37] ∧ NulFree [32, 233]) ∧
    ∃ a b, encode (charsOfBytes true [97, 37]) = some a ∧
      encode (charsOfBytes true [32, 233]) = some b ∧
      encode (charsOfBytes true [97, 37] ++ charsOfBytes true [32, 233]) = some (a ++ b) :=
  ⟨by decide, encode_append true [97, 37] [32, 233] (by decide) (by decide)⟩

/-- C19: encoding is injective on NUL-free inputs: two NUL-free byte strings with the same
encoding are the same string. -/
theorem encode_injective (signedChar : Bool) (s t : List Nat) (hs : NulFree s)
    (ht : NulFree t)
    (h : encode (charsOfBytes signedChar s) = encode (charsOfBytes signedChar t)) : s = t := by
  rw [encode_eq signedChar s hs, encode_eq signedChar t ht] at h
  exact percentEncode_injective s t hs ht (Option.some.inj h)

theorem encode_injective_witness :
    (NulFree [37, 50, 53] ∧ NulFree ([37] ++ [50, 53]) ∧
      encode (charsOfBytes false [37, 50, 53])
        = encode (charsOfBytes false ([37] ++ [50, 53]))) ∧
    [37, 50, 53] = [37] ++ [50, 53] :=
  ⟨⟨by decide, by decide, by decide⟩,
    encode_injective false [37, 50, 53] ([37] ++ [50, 53]) (by decide) (by decide)
      (by decide)⟩

end EncodeURIComponent
